import Mathlib

/-!
Verification development for a static blog generator (`src/main.rs`).

The program reads markdown post files named `YYYY-MM-DD-slug.md` from a
`posts/` directory, extracts YAML-style frontmatter, renders each post to
`public/{stem}.html` and builds `public/index.html` with tag filter buttons
and sorted post cards.

We shallowly embed the pure core of the program: strings are modelled as
`List Char`; Rust's `i32`/`i16` values as `Int` with the parse functions
enforcing the corresponding ranges; the external markdown parser's document
tree as a small inductive with the only node shapes the code inspects
(`Root`, `Yaml`, anything else); filesystem effects are factored out so the
per-post step becomes a pure function returning skip / fatal / ok.
-/

namespace Blog

/-- Model of Rust `char::is_whitespace` restricted to the ASCII whitespace
characters that can occur in the inputs we reason about. -/
def isWs (c : Char) : Bool := c = ' ' || c = '\t' || c = '\n' || c = '\r'

/-- Rust `str::trim`: remove leading and trailing whitespace. -/
def trim (s : List Char) : List Char :=
  ((s.dropWhile isWs).reverse.dropWhile isWs).reverse

/-- Rust `str::trim_matches(pat)` for a char-set pattern: repeatedly remove
matching characters from both ends. -/
def trim_matches (p : Char → Bool) (s : List Char) : List Char :=
  ((s.dropWhile p).reverse.dropWhile p).reverse

/-- The pattern `'"'` used for `title`/`author` values. -/
def isQuote (c : Char) : Bool := c = '"'

/-- The pattern `&['[', ']']` used for `categories` values. -/
def isBracket (c : Char) : Bool := c = '[' || c = ']'

/-- Split at the first occurrence of `c`: Rust `str::split_once`.
Returns the part before and the part after, or `none` when `c` is absent. -/
def splitFirst (c : Char) : List Char → Option (List Char × List Char)
  | [] => none
  | x :: xs =>
    if x = c then some ([], xs)
    else match splitFirst c xs with
      | none => none
      | some (p, q) => some (x :: p, q)

/-- Rust `str::split(c)`: split at every occurrence of `c`; always returns at
least one (possibly empty) part. -/
def splitChar (c : Char) : List Char → List (List Char)
  | [] => [[]]
  | x :: xs =>
    if x = c then [] :: splitChar c xs
    else match splitChar c xs with
      | [] => [[x]]
      | p :: ps => (x :: p) :: ps

/-- Rust `str::splitn(n, c)`: split at occurrences of `c`, into at most `n`
parts, the last part keeping the remainder unsplit. -/
def splitn (n : Nat) (c : Char) (s : List Char) : List (List Char) :=
  match n with
  | 0 => []
  | 1 => [s]
  | n + 2 =>
    match splitFirst c s with
    | none => [s]
    | some (p, q) => p :: splitn (n + 1) c q

/-- Helper for `trim_end_matches_md`: on the reversed string, repeatedly
remove the prefix `"dm."` (the reverse of `".md"`). Structural recursion, so
the kernel can evaluate it. -/
def stripMdRev : List Char → List Char
  | 'd' :: 'm' :: '.' :: rest => stripMdRev rest
  | s => s

/-- Rust `str::trim_end_matches(".md")`: repeatedly remove the suffix
`".md"` (implemented on the reversed list). -/
def trim_end_matches_md (s : List Char) : List Char :=
  (stripMdRev s.reverse).reverse

/-- Numeric value of a digit string (most significant digit first). -/
def natVal (s : List Char) : Nat :=
  s.foldl (fun a c => 10 * a + (c.toNat - 48)) 0

/-- Parse a nonempty all-digit string to its value (the digit-consuming core
of Rust's integer `FromStr`). -/
def parseDigits (s : List Char) : Option Nat :=
  if s ≠ [] ∧ s.all Char.isDigit then some (natVal s) else none

/-- Rust integer `str::parse`: optional sign, then one or more digits. -/
def parseInt (s : List Char) : Option Int :=
  match s with
  | [] => none
  | c :: rest =>
    if c = '+' then (parseDigits rest).map (fun n => (n : Int))
    else if c = '-' then (parseDigits rest).map (fun n => -(n : Int))
    else (parseDigits (c :: rest)).map (fun n => (n : Int))

/-- Rust `str::parse::<i32>`: value must fit in `i32`, else `Err`. -/
def parseI32 (s : List Char) : Option Int :=
  (parseInt s).bind (fun v => if -(2 ^ 31) ≤ v ∧ v < 2 ^ 31 then some v else none)

/-- Rust `str::parse::<i16>`: value must fit in `i16`, else `Err`. -/
def parseI16 (s : List Char) : Option Int :=
  (parseInt s).bind (fun v => if -(2 ^ 15) ≤ v ∧ v < 2 ^ 15 then some v else none)

/-- Model of `struct FileNameStruct` from the source: the retained (extension-trimmed)
file name, the parsed date parts and the slug. -/
structure FileNameStruct where
  file_name : List Char
  year : Int
  month : Int
  day : Int
  slug : List Char
deriving Repr, DecidableEq

/-- Model of `fn parse_file_name`: trim trailing `".md"`, split into at most 4
dash-separated parts, require 4 parts whose first three parse as
`i32`/`i16`/`i16`. -/
def parse_file_name (name : List Char) : Option FileNameStruct :=
  let file_name := trim_end_matches_md name
  let parts := splitn 4 '-' file_name
  if parts.length < 4 then none
  else do
    let year ← parseI32 (parts.getD 0 [])
    let month ← parseI16 (parts.getD 1 [])
    let day ← parseI16 (parts.getD 2 [])
    some ⟨file_name, year, month, day, parts.getD 3 []⟩

/-- Rust `str::lines`: split on `'\n'`, drop a final empty segment (so a
trailing line ending yields no extra line), and strip a trailing `'\r'` from
each line. -/
def linesOf (s : List Char) : List (List Char) :=
  let ps := splitChar '\n' s
  let ps := if ps.getLast? = some [] then ps.dropLast else ps
  ps.map (fun l => if l.getLast? = some '\r' then l.dropLast else l)

/-- The document-tree shapes `parse_frontmatter` distinguishes: the external
markdown parser's `mdast::Node`, collapsed to `Root` (with children), `Yaml`
(with its raw text) and an opaque tag for every other node kind. -/
inductive Node where
  | root (children : List Node)
  | yaml (value : List Char)
  | other (tag : Nat) (children : List Node)

/-- Model of `struct Frontmatter` from the source; all fields default to empty. -/
structure Frontmatter where
  layout : List Char := []
  title : List Char := []
  author : List Char := []
  categories : List (List Char) := []
deriving Repr, DecidableEq

/-- The `categories` value transformation: strip surrounding `[`/`]`
characters, split on `','`, trim each element. -/
def categoriesOf (value : List Char) : List (List Char) :=
  (splitChar ',' (trim_matches isBracket value)).map trim

/-- One iteration of the `for line in yaml.value.lines()` loop of
`parse_frontmatter`: split the line at the first `':'`, trim key and value,
and store the value under a recognized key (overwriting). -/
def fmStep (fm : Frontmatter) (line : List Char) : Frontmatter :=
  match splitFirst ':' line with
  | none => fm
  | some (key, value) =>
    let key := trim key
    let value := trim value
    if key = "layout".toList then { fm with layout := value }
    else if key = "title".toList then { fm with title := trim_matches isQuote value }
    else if key = "author".toList then { fm with author := trim_matches isQuote value }
    else if key = "categories".toList then { fm with categories := categoriesOf value }
    else fm

/-- The trimmed key of a frontmatter line, when the line contains a `':'`
(the value a line is matched on in the `parse_frontmatter` loop). -/
def keyOf (l : List Char) : Option (List Char) :=
  (splitFirst ':' l).map (fun kv => trim kv.1)

/-- Model of `fn parse_frontmatter`: require a `Root` whose first child is a `Yaml`
node, fold the key-value lines of its text, and remove the yaml node from
the tree (the source mutates `node` in place; we return the updated tree). -/
def parse_frontmatter (node : Node) : Option (Frontmatter × Node) :=
  match node with
  | .root (.yaml v :: rest) =>
    some ((linesOf v).foldl fmStep {}, .root rest)
  | _ => none

/-- The `match month { .. }` table in `main`: month abbreviation, `"Unknown"`
for anything outside 1–12. -/
def month_str (m : Int) : String :=
  if m = 1 then "Jan"
  else if m = 2 then "Feb"
  else if m = 3 then "Mar"
  else if m = 4 then "Apr"
  else if m = 5 then "May"
  else if m = 6 then "June"
  else if m = 7 then "July"
  else if m = 8 then "Aug"
  else if m = 9 then "Sept"
  else if m = 10 then "Oct"
  else if m = 11 then "Nov"
  else if m = 12 then "Dec"
  else "Unknown"

/-- Rust `Display` for an integer, as used by `format!("{day}, {year}")`. -/
def intStr (i : Int) : List Char := (toString i).toList

/-- Model of `let date_str = format!("{month_str} {day}, {year}")`. -/
def date_str_of (year month day : Int) : List Char :=
  (month_str month).toList ++ " ".toList ++ intStr day ++ ", ".toList ++ intStr year

/-- Model of `struct PostIndex` from the source. -/
structure PostIndex where
  url : List Char
  title : List Char
  sort_key : Int × Int × Int
  date_str : List Char
  author : List Char
  tags : List Char
deriving Repr, DecidableEq

/-- Model of `let dest_path = format!("public/{file_name}.html")`. -/
def dest_path (file_name : List Char) : List Char :=
  "public/".toList ++ file_name ++ ".html".toList

/-- The `PostIndex` record pushed by `main` for one processed post: the url is
`{file_name}.html`, the sort key is the negated date, the tags string joins
the categories with `", "`. -/
def mkEntry (fi : FileNameStruct) (fm : Frontmatter) : PostIndex :=
  { url := fi.file_name ++ ".html".toList
    title := fm.title
    sort_key := (-fi.year, -fi.month, -fi.day)
    date_str := date_str_of fi.year fi.month fi.day
    author := fm.author
    tags := List.intercalate ", ".toList fm.categories }

/-- One tag filter button, as formatted in the tag loop of `main`. -/
def tag_button (tag : List Char) : List Char :=
  "<button class=\"tag-filter-btn\" data-tag=\"".toList ++ tag ++
    "\">".toList ++ tag ++ "</button>\n".toList

/-- The concatenated tag filter buttons markup. -/
def tags_html (tags : List (List Char)) : List Char :=
  tags.foldl (fun acc tag => acc ++ tag_button tag) []

/-- One post card, as formatted in the post loop of `main`. -/
def post_card (p : PostIndex) : List Char :=
  "<article class=\"post-card\" data-tags=\"".toList ++ p.tags ++ "\">".toList ++
    "<h2><a href=\"".toList ++ p.url ++ "\">".toList ++ p.title ++ "</a></h2>".toList ++
    "<div class=\"meta-line\">".toList ++
    "<span class=\"date\">".toList ++ p.date_str ++ "</span> — ".toList ++
    "<span class=\"author\">".toList ++ p.author ++ "</span> — ".toList ++
    "<span class=\"tags-inline\">".toList ++ p.tags ++ "</span>".toList ++
    "</div>".toList ++ "</article>".toList ++ "\n".toList

/-- Insertion into the `HashSet<String>` of tags, modelled as an append-only
list without duplicates (order is irrelevant: the set is sorted before use). -/
def insertTag (ts : List (List Char)) (t : List Char) : List (List Char) :=
  if t ∈ ts then ts else ts ++ [t]

/-- Model of `for tag in fm.categories { tags.insert(tag); }`. -/
def insertTags (ts : List (List Char)) (cats : List (List Char)) : List (List Char) :=
  cats.foldl insertTag ts

/-- Lexicographic order on strings (Rust `String`'s `Ord`). -/
def strLe : List Char → List Char → Bool
  | [], _ => true
  | _ :: _, [] => false
  | a :: as_, b :: bs =>
    if a < b then true
    else if a = b then strLe as_ bs
    else false

/-- Model of `tags.sort()`: the tag list sorted lexicographically. -/
def sortTags (ts : List (List Char)) : List (List Char) :=
  ts.mergeSort strLe

/-- Rust's lexicographic `Ord` on the `(i32, i16, i16)` sort-key tuple. -/
def keyLe (a b : Int × Int × Int) : Bool :=
  decide (a.1 < b.1 ∨ (a.1 = b.1 ∧ (a.2.1 < b.2.1 ∨ (a.2.1 = b.2.1 ∧ a.2.2 ≤ b.2.2))))

/-- Model of `posts.sort_by_key(|post| post.sort_key)`: Rust's stable sort, modelled by
`List.mergeSort` (which is also stable) on the same key order. -/
def sortPosts (ps : List PostIndex) : List PostIndex :=
  ps.mergeSort (fun a b => keyLe a.sort_key b.sort_key)

/-- Rust `Path::extension`: the portion of the file name after the last
`'.'`; `none` when there is no `'.'` or the name starts with its only `'.'`. -/
def extension (name : List Char) : Option (List Char) :=
  match splitFirst '.' name.reverse with
  | none => none
  | some (extRev, restRev) => if restRev = [] then none else some extRev.reverse

/-- Outcome of one iteration of the directory loop in `main`: the file is
skipped (`continue`), the whole build aborts (a `.unwrap()` panic), or the
post page is written and an index entry produced. -/
inductive StepResult where
  | skip : StepResult
  | fatal : StepResult
  | ok (dest : List Char) (entry : PostIndex) : StepResult
deriving Repr, DecidableEq

/-- The pure control flow of one iteration of the loop in `main`: skip unless
the extension is `md`; skip unless the file name parses; abort (panic) when
frontmatter extraction fails; otherwise produce the destination path and the
index entry. The document tree is the external parser's output for the file's
content, passed in as a parameter. -/
def process_entry (name : List Char) (tree : Node) : StepResult :=
  if extension name ≠ some "md".toList then .skip
  else match parse_file_name name with
    | none => .skip
    | some fi =>
      match parse_frontmatter tree with
      | none => .fatal
      | some (fm, _stripped) => .ok (dest_path fi.file_name) (mkEntry fi fm)

end Blog

/-- C5: the month-to-abbreviation mapping is a total function over the
integers: 1–12 map to their abbreviations and every other integer (e.g. 0,
13, -5) maps to `"Unknown"`. -/
theorem c5_month_table_total :
    Blog.month_str 1 = "Jan" ∧ Blog.month_str 2 = "Feb" ∧
    Blog.month_str 3 = "Mar" ∧ Blog.month_str 4 = "Apr" ∧
    Blog.month_str 5 = "May" ∧ Blog.month_str 6 = "June" ∧
    Blog.month_str 7 = "July" ∧ Blog.month_str 8 = "Aug" ∧
    Blog.month_str 9 = "Sept" ∧ Blog.month_str 10 = "Oct" ∧
    Blog.month_str 11 = "Nov" ∧ Blog.month_str 12 = "Dec" ∧
    Blog.month_str 0 = "Unknown" ∧ Blog.month_str 13 = "Unknown" ∧
    Blog.month_str (-5) = "Unknown" ∧
    (∀ m : Int, m < 1 ∨ 12 < m → Blog.month_str m = "Unknown") := by
  refine ⟨rfl, rfl, rfl, rfl, rfl, rfl, rfl, rfl, rfl, rfl, rfl, rfl, rfl, rfl, rfl, ?_⟩
  intro m hm
  unfold Blog.month_str
  have h1 : m ≠ 1 := by omega
  have h2 : m ≠ 2 := by omega
  have h3 : m ≠ 3 := by omega
  have h4 : m ≠ 4 := by omega
  have h5 : m ≠ 5 := by omega
  have h6 : m ≠ 6 := by omega
  have h7 : m ≠ 7 := by omega
  have h8 : m ≠ 8 := by omega
  have h9 : m ≠ 9 := by omega
  have h10 : m ≠ 10 := by omega
  have h11 : m ≠ 11 := by omega
  have h12 : m ≠ 12 := by omega
  simp [h1, h2, h3, h4, h5, h6, h7, h8, h9, h10, h11, h12]

/-- Witness for `c5_month_table_total` at month 13. -/
theorem c5_month_table_total_witness :
    Blog.month_str 13 = "Unknown" :=
  c5_month_table_total.2.2.2.2.2.2.2.2.2.2.2.2.2.2.2 13 (Or.inr (by norm_num))

namespace Blog

theorem stripMdRev_head_not_md (r : List Char) (rest : List Char) :
    stripMdRev r ≠ 'd' :: 'm' :: '.' :: rest := by
  rw [stripMdRev.eq_def]
  split
  · next rest2 => exact stripMdRev_head_not_md rest2 rest
  · next h => exact h rest
termination_by r.length
decreasing_by all_goals (subst_vars; simp only [List.length_cons]; omega)

theorem stripMdRev_decomp (r : List Char) :
    ∃ k, r = (List.replicate k ['d', 'm', '.']).flatten ++ stripMdRev r := by
  rw [stripMdRev.eq_def]
  split
  · next rest =>
    obtain ⟨k, hk⟩ := stripMdRev_decomp rest
    exact ⟨k + 1, by simp only [List.replicate_succ, List.flatten_cons,
      List.append_assoc, List.cons_append, List.nil_append]; rw [← hk]⟩
  · exact ⟨0, by simp⟩
termination_by r.length
decreasing_by all_goals (subst_vars; simp only [List.length_cons]; omega)

theorem flatten_replicate_snoc (k : Nat) (x : List Char) :
    (List.replicate k x).flatten ++ x = (List.replicate (k + 1) x).flatten := by
  induction k with
  | zero => simp
  | succ k ih =>
    simp only [List.replicate_succ, List.flatten_cons, List.append_assoc] at ih ⊢
    rw [ih]

theorem flatten_replicate_reverse (k : Nat) (x : List Char) :
    ((List.replicate k x).flatten).reverse = (List.replicate k x.reverse).flatten := by
  induction k with
  | zero => simp
  | succ k ih =>
    simp only [List.replicate_succ, List.flatten_cons, List.reverse_append, ih]
    rw [Blog.flatten_replicate_snoc]
    simp [List.replicate_succ]

end Blog

/-- C2 counterexample: the file name `2021-01-02-x.md.md` does NOT retain one
`.md` in its raw name — the code's `trim_end_matches(".md")` removes every
trailing `.md`, so the retained name is `2021-01-02-x`. -/
theorem c2_single_extension_strip_claim_false :
    (Blog.parse_file_name ("2021-01-02-x.md.md".toList)).map Blog.FileNameStruct.file_name =
      some ("2021-01-02-x".toList) ∧
    some ("2021-01-02-x".toList) ≠ some ("2021-01-02-x.md".toList) := by
  exact ⟨by decide, by decide⟩

/-- C2 amended: `parse_file_name` strips ALL trailing `.md` suffixes (not
exactly one): the retained raw name never ends in `.md`, the input is the raw
name followed by some number of `.md` copies, and a successful parse stores
exactly that raw name. -/
theorem c2_extension_strip_amended (s : List Char) :
    (¬ (".md".toList <:+ Blog.trim_end_matches_md s)) ∧
    (∃ k, s = Blog.trim_end_matches_md s ++ (List.replicate k (".md".toList)).flatten) ∧
    (∀ fi, Blog.parse_file_name s = some fi → fi.file_name = Blog.trim_end_matches_md s) := by
  refine ⟨?_, ?_, ?_⟩
  · intro hsuf
    rw [Blog.trim_end_matches_md] at hsuf
    have h2 := List.reverse_prefix.mpr hsuf
    rw [List.reverse_reverse] at h2
    have h3 : (".md".toList).reverse = ['d', 'm', '.'] := by decide
    rw [h3] at h2
    obtain ⟨t, ht⟩ := h2
    exact Blog.stripMdRev_head_not_md s.reverse t ht.symm
  · obtain ⟨k, hk⟩ := Blog.stripMdRev_decomp s.reverse
    refine ⟨k, ?_⟩
    have h := congrArg List.reverse hk
    rw [List.reverse_reverse, List.reverse_append] at h
    have hrev : ((List.replicate k ['d', 'm', '.']).flatten).reverse =
        (List.replicate k (".md".toList)).flatten := by
      rw [Blog.flatten_replicate_reverse]
      rfl
    rw [Blog.trim_end_matches_md]
    rw [hrev] at h
    exact h
  · intro fi hfi
    simp only [Blog.parse_file_name] at hfi
    split at hfi
    · exact absurd hfi (by simp)
    · cases hy : Blog.parseI32 ((Blog.splitn 4 '-' (Blog.trim_end_matches_md s)).getD 0 []) with
      | none => rw [hy] at hfi; exact absurd hfi (by simp)
      | some y =>
        rw [hy] at hfi
        cases hm : Blog.parseI16 ((Blog.splitn 4 '-' (Blog.trim_end_matches_md s)).getD 1 []) with
        | none => rw [hm] at hfi; exact absurd hfi (by simp)
        | some m =>
          rw [hm] at hfi
          cases hd : Blog.parseI16 ((Blog.splitn 4 '-' (Blog.trim_end_matches_md s)).getD 2 []) with
          | none => rw [hd] at hfi; exact absurd hfi (by simp)
          | some d =>
            rw [hd] at hfi
            rw [← Option.some.inj hfi]

/-- Witness for `c2_extension_strip_amended` at `2021-01-02-x.md.md`. -/
theorem c2_extension_strip_amended_witness :
    (⟨"2021-01-02-x".toList, 2021, 1, 2, "x".toList⟩ : Blog.FileNameStruct).file_name =
      Blog.trim_end_matches_md ("2021-01-02-x.md.md".toList) :=
  (c2_extension_strip_amended _).2.2 _ (by decide)

namespace Blog

theorem getLast?_dropWhile_of_ne_nil (p : Char → Bool) :
    ∀ l : List Char, l.dropWhile p ≠ [] → (l.dropWhile p).getLast? = l.getLast?
  | [], h => absurd rfl h
  | x :: xs, h => by
    rw [List.dropWhile_cons] at h ⊢
    by_cases hp : p x
    · simp only [hp, if_true] at h ⊢
      have hxs : xs ≠ [] := by
        intro h0
        rw [h0] at h
        simp at h
      rw [getLast?_dropWhile_of_ne_nil p xs h]
      cases xs with
      | nil => exact absurd rfl hxs
      | cons y ys => simp [List.getLast?_cons_cons]
    · simp [hp]

theorem trim_matches_decomp (p : Char → Bool) (s : List Char) :
    ∃ pre suf, s = pre ++ (trim_matches p s ++ suf) ∧
      (∀ c ∈ pre, p c) ∧ (∀ c ∈ suf, p c) := by
  refine ⟨s.takeWhile p, ((s.dropWhile p).reverse.takeWhile p).reverse, ?_, ?_, ?_⟩
  · conv_lhs => rw [← List.takeWhile_append_dropWhile (p := p) (l := s)]
    congr 1
    have h1 : (s.dropWhile p).reverse =
        (s.dropWhile p).reverse.takeWhile p ++ (s.dropWhile p).reverse.dropWhile p :=
      (List.takeWhile_append_dropWhile ..).symm
    have h2 := congrArg List.reverse h1
    rw [List.reverse_reverse, List.reverse_append] at h2
    exact h2
  · intro c hc
    exact List.all_eq_true.mp List.all_takeWhile c hc
  · intro c hc
    rw [List.mem_reverse] at hc
    exact List.all_eq_true.mp List.all_takeWhile c hc

theorem head?_dropWhile_false (p : Char → Bool) (l : List Char) (c : Char)
    (h : (l.dropWhile p).head? = some c) : p c = false := by
  have hm := List.head?_dropWhile_not p l
  rw [h] at hm
  exact hm

theorem trim_matches_head?_not (p : Char → Bool) (s : List Char) (c : Char)
    (h : (trim_matches p s).head? = some c) : p c = false := by
  rw [Blog.trim_matches, List.head?_reverse] at h
  by_cases hd : (s.dropWhile p).reverse.dropWhile p = []
  · rw [hd] at h
    simp at h
  · rw [getLast?_dropWhile_of_ne_nil p _ hd, List.getLast?_reverse] at h
    exact head?_dropWhile_false p s c h

theorem trim_matches_getLast?_not (p : Char → Bool) (s : List Char) (c : Char)
    (h : (trim_matches p s).getLast? = some c) : p c = false := by
  rw [Blog.trim_matches, List.getLast?_reverse] at h
  exact head?_dropWhile_false p _ c h

end Blog

/-- C3 counterexample: for the frontmatter line `title: ""a""` (whose quoted
content itself begins and ends with a double quote) the stored value is `a`,
not `"a"` — the inner quotes are NOT kept. -/
theorem c3_quote_strip_claim_false :
    (Blog.fmStep {} ("title: \"\"a\"\"".toList)).title = "a".toList ∧
    "a".toList ≠ "\"a\"".toList :=
  ⟨by decide, by decide⟩

/-- C3 amended: for a `title` (or `author`) frontmatter line, the stored
value is the trimmed value with ALL leading and trailing double-quote
characters stripped (not one layer): the trimmed value splits as
quotes ++ stored ++ quotes, and the stored value neither starts nor ends
with a double quote. -/
theorem c3_quote_strip_amended (fm : Blog.Frontmatter) (l k v : List Char)
    (hsplit : Blog.splitFirst ':' l = some (k, v)) :
    (Blog.trim k = "title".toList →
      (Blog.fmStep fm l).title = Blog.trim_matches Blog.isQuote (Blog.trim v) ∧
      (∃ pre suf, Blog.trim v = pre ++ ((Blog.fmStep fm l).title ++ suf) ∧
        (∀ c ∈ pre, Blog.isQuote c) ∧ (∀ c ∈ suf, Blog.isQuote c)) ∧
      (∀ c, ((Blog.fmStep fm l).title.head? = some c → Blog.isQuote c = false) ∧
        ((Blog.fmStep fm l).title.getLast? = some c → Blog.isQuote c = false))) ∧
    (Blog.trim k = "author".toList →
      (Blog.fmStep fm l).author = Blog.trim_matches Blog.isQuote (Blog.trim v) ∧
      (∃ pre suf, Blog.trim v = pre ++ ((Blog.fmStep fm l).author ++ suf) ∧
        (∀ c ∈ pre, Blog.isQuote c) ∧ (∀ c ∈ suf, Blog.isQuote c)) ∧
      (∀ c, ((Blog.fmStep fm l).author.head? = some c → Blog.isQuote c = false) ∧
        ((Blog.fmStep fm l).author.getLast? = some c → Blog.isQuote c = false))) := by
  constructor
  · intro hk
    have hne : ¬ Blog.trim k = "layout".toList := by rw [hk]; decide
    have hstep : (Blog.fmStep fm l).title = Blog.trim_matches Blog.isQuote (Blog.trim v) := by
      simp only [Blog.fmStep, hsplit]
      rw [if_neg hne, if_pos hk]
    refine ⟨hstep, ?_, ?_⟩
    · obtain ⟨pre, suf, hdec, hp, hs⟩ := Blog.trim_matches_decomp Blog.isQuote (Blog.trim v)
      exact ⟨pre, suf, by rw [hstep]; exact hdec, hp, hs⟩
    · intro c
      rw [hstep]
      exact ⟨Blog.trim_matches_head?_not _ _ c, Blog.trim_matches_getLast?_not _ _ c⟩
  · intro hk
    have hne1 : ¬ Blog.trim k = "layout".toList := by rw [hk]; decide
    have hne2 : ¬ Blog.trim k = "title".toList := by rw [hk]; decide
    have hstep : (Blog.fmStep fm l).author = Blog.trim_matches Blog.isQuote (Blog.trim v) := by
      simp only [Blog.fmStep, hsplit]
      rw [if_neg hne1, if_neg hne2, if_pos hk]
    refine ⟨hstep, ?_, ?_⟩
    · obtain ⟨pre, suf, hdec, hp, hs⟩ := Blog.trim_matches_decomp Blog.isQuote (Blog.trim v)
      exact ⟨pre, suf, by rw [hstep]; exact hdec, hp, hs⟩
    · intro c
      rw [hstep]
      exact ⟨Blog.trim_matches_head?_not _ _ c, Blog.trim_matches_getLast?_not _ _ c⟩

/-- Witness for `c3_quote_strip_amended` on the line `title: "x"`. -/
theorem c3_quote_strip_amended_witness :
    (Blog.fmStep {} ("title: \"x\"".toList)).title =
      Blog.trim_matches Blog.isQuote (Blog.trim (" \"x\"".toList)) :=
  ((c3_quote_strip_amended {} ("title: \"x\"".toList) ("title".toList)
    (" \"x\"".toList) (by decide)).1 (by decide)).1

/-- C4 counterexample: for the frontmatter line `categories: [[a]]`, the
stored list is `["a"]`, not the one-layer-stripped `["[a]"]`. -/
theorem c4_bracket_strip_claim_false :
    (Blog.fmStep {} ("categories: [[a]]".toList)).categories = ["a".toList] ∧
    ["a".toList] ≠ ["[a]".toList] :=
  ⟨by decide, by decide⟩

/-- C4 amended: for a `categories` frontmatter line, the stored list is the
trimmed value with ALL leading and trailing `[`/`]` characters stripped,
then split on every comma with each element trimmed; `[a, b,c]` yields
`["a","b","c"]`. -/
theorem c4_bracket_strip_amended (fm : Blog.Frontmatter) (l k v : List Char)
    (hsplit : Blog.splitFirst ':' l = some (k, v))
    (hk : Blog.trim k = "categories".toList) :
    (Blog.fmStep fm l).categories =
      (Blog.splitChar ',' (Blog.trim_matches Blog.isBracket (Blog.trim v))).map Blog.trim ∧
    (∃ pre suf, Blog.trim v =
        pre ++ (Blog.trim_matches Blog.isBracket (Blog.trim v) ++ suf) ∧
      (∀ c ∈ pre, Blog.isBracket c) ∧ (∀ c ∈ suf, Blog.isBracket c)) ∧
    (∀ c, ((Blog.trim_matches Blog.isBracket (Blog.trim v)).head? = some c →
        Blog.isBracket c = false) ∧
      ((Blog.trim_matches Blog.isBracket (Blog.trim v)).getLast? = some c →
        Blog.isBracket c = false)) ∧
    (Blog.fmStep {} ("categories: [a, b,c]".toList)).categories =
      ["a".toList, "b".toList, "c".toList] := by
  have hne1 : ¬ Blog.trim k = "layout".toList := by rw [hk]; decide
  have hne2 : ¬ Blog.trim k = "title".toList := by rw [hk]; decide
  have hne3 : ¬ Blog.trim k = "author".toList := by rw [hk]; decide
  refine ⟨?_, Blog.trim_matches_decomp Blog.isBracket (Blog.trim v), ?_, by decide⟩
  · simp only [Blog.fmStep, hsplit]
    rw [if_neg hne1, if_neg hne2, if_neg hne3, if_pos hk]
    rfl
  · intro c
    exact ⟨Blog.trim_matches_head?_not _ _ c, Blog.trim_matches_getLast?_not _ _ c⟩

/-- Witness for `c4_bracket_strip_amended` on the line `categories: [x]`. -/
theorem c4_bracket_strip_amended_witness :
    (Blog.fmStep {} ("categories: [x]".toList)).categories =
      (Blog.splitChar ','
        (Blog.trim_matches Blog.isBracket (Blog.trim (" [x]".toList)))).map Blog.trim :=
  (c4_bracket_strip_amended {} ("categories: [x]".toList) ("categories".toList)
    (" [x]".toList) (by decide) (by decide)).1

/-- C1 counterexample: the post page for `2021-03-02-hello-world.md` is
written to `public/2021-03-02-hello-world.html` — NOT to
`public/2021-03-02-hello-world.md.html` as claimed: the retained file name
has the `.md` extension stripped before `.html` is appended. -/
theorem c1_output_path_claim_false :
    (Blog.parse_file_name ("2021-03-02-hello-world.md".toList)).map
        (fun fi => Blog.dest_path fi.file_name) =
      some ("public/2021-03-02-hello-world.html".toList) ∧
    ¬ ((Blog.parse_file_name ("2021-03-02-hello-world.md".toList)).map
        (fun fi => Blog.dest_path fi.file_name) =
      some ("public/2021-03-02-hello-world.md.html".toList)) :=
  ⟨by decide, by decide⟩

/-- C1 amended: processing the post file `2021-03-02-hello-world.md` (with
frontmatter title `"Hi"`, author `"Ann"`, categories `[intro]`) writes the
post page to `public/2021-03-02-hello-world.html`, the index entry carries
date string `Mar 2, 2021` and its post card links to
`2021-03-02-hello-world.html`, and the index has a filter button for
`intro`. -/
theorem c1_end_to_end_amended (body : List Blog.Node) :
    Blog.process_entry ("2021-03-02-hello-world.md".toList)
        (.root (.yaml ("title: \"Hi\"\nauthor: \"Ann\"\ncategories: [intro]".toList) :: body)) =
      .ok ("public/2021-03-02-hello-world.html".toList)
        { url := "2021-03-02-hello-world.html".toList
          title := "Hi".toList
          sort_key := (-2021, -3, -2)
          date_str := "Mar 2, 2021".toList
          author := "Ann".toList
          tags := "intro".toList } ∧
    ("href=\"2021-03-02-hello-world.html\"".toList) <:+:
      Blog.post_card
        { url := "2021-03-02-hello-world.html".toList
          title := "Hi".toList
          sort_key := (-2021, -3, -2)
          date_str := "Mar 2, 2021".toList
          author := "Ann".toList
          tags := "intro".toList } ∧
    Blog.tag_button ("intro".toList) <:+:
      Blog.tags_html (Blog.sortTags (Blog.insertTags [] ["intro".toList])) := by
  refine ⟨rfl, by decide, ?_⟩
  have h1 : Blog.insertTags [] ["intro".toList] = ["intro".toList] := rfl
  rw [h1, Blog.sortTags, List.mergeSort_singleton]
  exact ⟨[], [], by simp [Blog.tags_html]⟩

namespace Blog

theorem tags_html_foldl (ts : List (List Char)) (acc : List Char) :
    ts.foldl (fun a t => a ++ tag_button t) acc = acc ++ (ts.map tag_button).flatten := by
  induction ts generalizing acc with
  | nil => simp
  | cons t ts ih => simp [List.foldl_cons, ih, List.append_assoc]

theorem tags_html_eq (ts : List (List Char)) :
    tags_html ts = (ts.map tag_button).flatten := by
  have h := tags_html_foldl ts []
  simpa [tags_html] using h

end Blog

/-- C8: frontmatter extraction yields nothing exactly when the tree is not a
root whose first child is a raw metadata (yaml) block — no children, a
non-yaml first child, or a non-root node — and in that case the per-post step
is fatal (the `.unwrap()` panic aborts the build) rather than a skip; when it
succeeds, the yaml block is removed from the returned tree. -/
theorem c8_missing_frontmatter_fatal :
    (Blog.parse_frontmatter (.root []) = none) ∧
    (∀ ch rest, (∀ v, ch ≠ Blog.Node.yaml v) →
      Blog.parse_frontmatter (.root (ch :: rest)) = none) ∧
    (∀ v, Blog.parse_frontmatter (.yaml v) = none) ∧
    (∀ tg ch, Blog.parse_frontmatter (.other tg ch) = none) ∧
    (∀ name tree, Blog.extension name = some ("md".toList) →
      (∃ fi, Blog.parse_file_name name = some fi) →
      Blog.parse_frontmatter tree = none →
      Blog.process_entry name tree = .fatal) ∧
    (∀ tree fm tree2, Blog.parse_frontmatter tree = some (fm, tree2) →
      ∃ v rest, tree = .root (.yaml v :: rest) ∧ tree2 = .root rest ∧
        fm = (Blog.linesOf v).foldl Blog.fmStep {}) := by
  refine ⟨rfl, ?_, fun v => rfl, fun tg ch => rfl, ?_, ?_⟩
  · intro ch rest h
    cases ch with
    | root c => rfl
    | yaml v => exact absurd rfl (h v)
    | other t c => rfl
  · intro name tree hext hfi hfm
    obtain ⟨fi, hfi⟩ := hfi
    simp [Blog.process_entry, hext, hfi, hfm]
  · intro tree fm tree2 h
    cases tree with
    | yaml v => exact Option.noConfusion h
    | other t c => exact Option.noConfusion h
    | root children =>
      cases children with
      | nil => exact Option.noConfusion h
      | cons ch rest =>
        cases ch with
        | root c => exact Option.noConfusion h
        | other t c => exact Option.noConfusion h
        | yaml v =>
          injection h with h2
          injection h2 with hfm htree
          exact ⟨v, rest, rfl, htree.symm, hfm.symm⟩

/-- Witness for `c8_missing_frontmatter_fatal`: a valid post file name whose
tree has no frontmatter block makes the step fatal. -/
theorem c8_missing_frontmatter_fatal_witness :
    Blog.process_entry ("2021-01-02-x.md".toList) (.root []) = .fatal :=
  c8_missing_frontmatter_fatal.2.2.2.2.1 ("2021-01-02-x.md".toList) (.root [])
    (by decide) ⟨⟨"2021-01-02-x".toList, 2021, 1, 2, "x".toList⟩, by decide⟩ rfl

/-- C9: a `categories` frontmatter line whose bracket-stripped, trimmed value
is empty (e.g. `categories: []` or `categories:`) stores the one-element list
containing the empty string — not the empty list — so the empty-string tag is
a member of the tag set and a filter button is rendered for it. -/
theorem c9_empty_categories_singleton (fm : Blog.Frontmatter) (l k v : List Char)
    (hsplit : Blog.splitFirst ':' l = some (k, v))
    (hk : Blog.trim k = "categories".toList)
    (hempty : Blog.trim_matches Blog.isBracket (Blog.trim v) = []) :
    (Blog.fmStep fm l).categories = [[]] ∧
    (∀ ts, [] ∈ Blog.insertTags ts (Blog.fmStep fm l).categories) ∧
    (∀ ts : List (List Char), [] ∈ ts →
      Blog.tag_button [] <:+: Blog.tags_html (Blog.sortTags ts)) := by
  have hne1 : ¬ Blog.trim k = "layout".toList := by rw [hk]; decide
  have hne2 : ¬ Blog.trim k = "title".toList := by rw [hk]; decide
  have hne3 : ¬ Blog.trim k = "author".toList := by rw [hk]; decide
  have hc : (Blog.fmStep fm l).categories = [[]] := by
    simp only [Blog.fmStep, hsplit]
    rw [if_neg hne1, if_neg hne2, if_neg hne3, if_pos hk]
    rw [Blog.categoriesOf, hempty]
    rfl
  refine ⟨hc, ?_, ?_⟩
  · intro ts
    rw [hc]
    by_cases hmem : ([] : List Char) ∈ ts
    · simp [Blog.insertTags, Blog.insertTag, hmem]
    · simp [Blog.insertTags, Blog.insertTag, hmem]
  · intro ts hts
    have hmem : ([] : List Char) ∈ Blog.sortTags ts := by
      rw [Blog.sortTags]
      exact List.mem_mergeSort.mpr hts
    obtain ⟨s1, s2, hdec⟩ := List.append_of_mem hmem
    rw [hdec, Blog.tags_html_eq]
    refine ⟨(s1.map Blog.tag_button).flatten, (s2.map Blog.tag_button).flatten, ?_⟩
    simp [List.map_append, List.append_assoc]

/-- Witness for `c9_empty_categories_singleton` on the line `categories: []`. -/
theorem c9_empty_categories_singleton_witness :
    (Blog.fmStep {} ("categories: []".toList)).categories = [[]] :=
  (c9_empty_categories_singleton {} ("categories: []".toList) ("categories".toList)
    (" []".toList) (by decide) (by decide) (by decide)).1

namespace Blog

theorem fmStep_layout_of_ne (fm : Frontmatter) (l : List Char)
    (h : keyOf l ≠ some ("layout".toList)) : (fmStep fm l).layout = fm.layout := by
  cases hs : splitFirst ':' l with
  | none => simp [fmStep, hs]
  | some kv =>
    obtain ⟨k, v⟩ := kv
    have hk : ¬ trim k = "layout".toList := by
      intro he
      exact h (by simp [keyOf, hs, he])
    simp only [fmStep, hs]
    rw [if_neg hk]
    split_ifs <;> rfl

theorem fmStep_title_of_ne (fm : Frontmatter) (l : List Char)
    (h : keyOf l ≠ some ("title".toList)) : (fmStep fm l).title = fm.title := by
  cases hs : splitFirst ':' l with
  | none => simp [fmStep, hs]
  | some kv =>
    obtain ⟨k, v⟩ := kv
    have hk : ¬ trim k = "title".toList := by
      intro he
      exact h (by simp [keyOf, hs, he])
    simp only [fmStep, hs]
    split_ifs <;> rfl

theorem fmStep_author_of_ne (fm : Frontmatter) (l : List Char)
    (h : keyOf l ≠ some ("author".toList)) : (fmStep fm l).author = fm.author := by
  cases hs : splitFirst ':' l with
  | none => simp [fmStep, hs]
  | some kv =>
    obtain ⟨k, v⟩ := kv
    have hk : ¬ trim k = "author".toList := by
      intro he
      exact h (by simp [keyOf, hs, he])
    simp only [fmStep, hs]
    split_ifs <;> rfl

theorem fmStep_categories_of_ne (fm : Frontmatter) (l : List Char)
    (h : keyOf l ≠ some ("categories".toList)) :
    (fmStep fm l).categories = fm.categories := by
  cases hs : splitFirst ':' l with
  | none => simp [fmStep, hs]
  | some kv =>
    obtain ⟨k, v⟩ := kv
    have hk : ¬ trim k = "categories".toList := by
      intro he
      exact h (by simp [keyOf, hs, he])
    simp only [fmStep, hs]
    split_ifs <;> rfl

theorem foldl_fmStep_layout (ys : List (List Char)) (fm : Frontmatter)
    (h : ∀ l ∈ ys, keyOf l ≠ some ("layout".toList)) :
    (ys.foldl fmStep fm).layout = fm.layout := by
  induction ys generalizing fm with
  | nil => rfl
  | cons y ys ih =>
    rw [List.foldl_cons, ih _ (fun l hl => h l (List.mem_cons_of_mem _ hl))]
    exact fmStep_layout_of_ne fm y (h y (List.mem_cons_self _ _))

theorem foldl_fmStep_title (ys : List (List Char)) (fm : Frontmatter)
    (h : ∀ l ∈ ys, keyOf l ≠ some ("title".toList)) :
    (ys.foldl fmStep fm).title = fm.title := by
  induction ys generalizing fm with
  | nil => rfl
  | cons y ys ih =>
    rw [List.foldl_cons, ih _ (fun l hl => h l (List.mem_cons_of_mem _ hl))]
    exact fmStep_title_of_ne fm y (h y (List.mem_cons_self _ _))

theorem foldl_fmStep_author (ys : List (List Char)) (fm : Frontmatter)
    (h : ∀ l ∈ ys, keyOf l ≠ some ("author".toList)) :
    (ys.foldl fmStep fm).author = fm.author := by
  induction ys generalizing fm with
  | nil => rfl
  | cons y ys ih =>
    rw [List.foldl_cons, ih _ (fun l hl => h l (List.mem_cons_of_mem _ hl))]
    exact fmStep_author_of_ne fm y (h y (List.mem_cons_self _ _))

theorem foldl_fmStep_categories (ys : List (List Char)) (fm : Frontmatter)
    (h : ∀ l ∈ ys, keyOf l ≠ some ("categories".toList)) :
    (ys.foldl fmStep fm).categories = fm.categories := by
  induction ys generalizing fm with
  | nil => rfl
  | cons y ys ih =>
    rw [List.foldl_cons, ih _ (fun l hl => h l (List.mem_cons_of_mem _ hl))]
    exact fmStep_categories_of_ne fm y (h y (List.mem_cons_self _ _))

end Blog

/-- C10: inside one frontmatter block, each recognized key takes its value
from the LAST line carrying that key: a line for key `k` followed only by
lines whose key is not `k` determines the extracted field, for each of
`layout`, `title`, `author` and `categories`. -/
theorem c10_last_line_wins (fm0 : Blog.Frontmatter) (xs ys : List (List Char))
    (l k v : List Char) (hsplit : Blog.splitFirst ':' l = some (k, v)) :
    (Blog.trim k = "layout".toList →
      (∀ l2 ∈ ys, Blog.keyOf l2 ≠ some ("layout".toList)) →
      ((xs ++ l :: ys).foldl Blog.fmStep fm0).layout = Blog.trim v) ∧
    (Blog.trim k = "title".toList →
      (∀ l2 ∈ ys, Blog.keyOf l2 ≠ some ("title".toList)) →
      ((xs ++ l :: ys).foldl Blog.fmStep fm0).title =
        Blog.trim_matches Blog.isQuote (Blog.trim v)) ∧
    (Blog.trim k = "author".toList →
      (∀ l2 ∈ ys, Blog.keyOf l2 ≠ some ("author".toList)) →
      ((xs ++ l :: ys).foldl Blog.fmStep fm0).author =
        Blog.trim_matches Blog.isQuote (Blog.trim v)) ∧
    (Blog.trim k = "categories".toList →
      (∀ l2 ∈ ys, Blog.keyOf l2 ≠ some ("categories".toList)) →
      ((xs ++ l :: ys).foldl Blog.fmStep fm0).categories =
        Blog.categoriesOf (Blog.trim v)) := by
  refine ⟨?_, ?_, ?_, ?_⟩
  · intro hk hys
    rw [List.foldl_append, List.foldl_cons, Blog.foldl_fmStep_layout _ _ hys]
    simp only [Blog.fmStep, hsplit]
    rw [if_pos hk]
  · intro hk hys
    have hne : ¬ Blog.trim k = "layout".toList := by rw [hk]; decide
    rw [List.foldl_append, List.foldl_cons, Blog.foldl_fmStep_title _ _ hys]
    simp only [Blog.fmStep, hsplit]
    rw [if_neg hne, if_pos hk]
  · intro hk hys
    have hne1 : ¬ Blog.trim k = "layout".toList := by rw [hk]; decide
    have hne2 : ¬ Blog.trim k = "title".toList := by rw [hk]; decide
    rw [List.foldl_append, List.foldl_cons, Blog.foldl_fmStep_author _ _ hys]
    simp only [Blog.fmStep, hsplit]
    rw [if_neg hne1, if_neg hne2, if_pos hk]
  · intro hk hys
    have hne1 : ¬ Blog.trim k = "layout".toList := by rw [hk]; decide
    have hne2 : ¬ Blog.trim k = "title".toList := by rw [hk]; decide
    have hne3 : ¬ Blog.trim k = "author".toList := by rw [hk]; decide
    rw [List.foldl_append, List.foldl_cons, Blog.foldl_fmStep_categories _ _ hys]
    simp only [Blog.fmStep, hsplit]
    rw [if_neg hne1, if_neg hne2, if_neg hne3, if_pos hk]

/-- Witness for `c10_last_line_wins`: with lines `title: a`, `title: b`,
`author: c` the extracted title comes from the last title line. -/
theorem c10_last_line_wins_witness :
    ((["title: a".toList] ++ "title: b".toList :: ["author: c".toList]).foldl
        Blog.fmStep {}).title =
      Blog.trim_matches Blog.isQuote (Blog.trim (" b".toList)) :=
  (c10_last_line_wins {} ["title: a".toList] ["author: c".toList]
    ("title: b".toList) ("title".toList) (" b".toList) (by decide)).2.1
    (by decide) (by decide)

namespace Blog

theorem keyLe_trans (a b c : Int × Int × Int)
    (h1 : keyLe a b = true) (h2 : keyLe b c = true) : keyLe a c = true := by
  simp only [keyLe, decide_eq_true_eq] at h1 h2 ⊢
  omega

theorem keyLe_total (a b : Int × Int × Int) : keyLe a b || keyLe b a := by
  simp only [keyLe, Bool.or_eq_true, decide_eq_true_eq]
  omega

theorem keyLe_refl (a : Int × Int × Int) : keyLe a a = true := by
  simp only [keyLe, decide_eq_true_eq]
  exact Or.inr ⟨trivial, Or.inr ⟨trivial, le_refl _⟩⟩

end Blog

/-- C6: the index sort is an ascending stable sort on the negated
`(year, month, day)` keys: the sorted list is a permutation of the input,
consecutive entries are ascending in the negated-key order (which is exactly
descending in `(year, month, day)` — most recent first), and entries with
identical sort keys keep their insertion order. -/
theorem c6_index_sort_stable (ps : List Blog.PostIndex) :
    (Blog.sortPosts ps).Perm ps ∧
    (Blog.sortPosts ps).Pairwise
      (fun a b => Blog.keyLe a.sort_key b.sort_key = true) ∧
    (∀ y1 m1 d1 y2 m2 d2 : Int,
      (Blog.keyLe (-y1, -m1, -d1) (-y2, -m2, -d2) = true) ↔
        (y2 < y1 ∨ (y2 = y1 ∧ (m2 < m1 ∨ (m2 = m1 ∧ d2 ≤ d1))))) ∧
    (∀ k, (Blog.sortPosts ps).filter (fun p => p.sort_key = k) =
      ps.filter (fun p => p.sort_key = k)) := by
  have htrans : ∀ a b c : Blog.PostIndex,
      Blog.keyLe a.sort_key b.sort_key → Blog.keyLe b.sort_key c.sort_key →
      Blog.keyLe a.sort_key c.sort_key :=
    fun a b c h1 h2 => Blog.keyLe_trans _ _ _ h1 h2
  have htotal : ∀ a b : Blog.PostIndex,
      Blog.keyLe a.sort_key b.sort_key || Blog.keyLe b.sort_key a.sort_key :=
    fun a b => Blog.keyLe_total _ _
  refine ⟨List.mergeSort_perm ps _, List.sorted_mergeSort htrans htotal ps, ?_, ?_⟩
  · intro y1 m1 d1 y2 m2 d2
    simp only [Blog.keyLe, decide_eq_true_eq]
    constructor <;> (intro h; omega)
  · intro k
    have hpair : (ps.filter (fun p => p.sort_key = k)).Pairwise
        (fun a b => Blog.keyLe a.sort_key b.sort_key = true) := by
      apply List.pairwise_of_forall_mem_list
      intro a ha b hb
      have ha2 := of_decide_eq_true (List.mem_filter.mp ha).2
      have hb2 := of_decide_eq_true (List.mem_filter.mp hb).2
      rw [ha2, hb2]
      exact Blog.keyLe_refl k
    have hsubl : List.Sublist (ps.filter (fun p => p.sort_key = k)) (Blog.sortPosts ps) :=
      List.sublist_mergeSort htrans htotal hpair (List.filter_sublist ps)
    have hperm : List.Perm ((Blog.sortPosts ps).filter (fun p => p.sort_key = k))
        (ps.filter (fun p => p.sort_key = k)) :=
      (List.mergeSort_perm ps _).filter _
    have heq : (ps.filter (fun p => p.sort_key = k)).filter
        (fun p => p.sort_key = k) = ps.filter (fun p => p.sort_key = k) :=
      List.filter_eq_self.mpr (fun a ha => (List.mem_filter.mp ha).2)
    have hsub2 : List.Sublist (ps.filter (fun p => p.sort_key = k))
        ((Blog.sortPosts ps).filter (fun p => p.sort_key = k)) := by
      have h := hsubl.filter (fun p => p.sort_key = k)
      rwa [heq] at h
    exact (hsub2.eq_of_length hperm.length_eq.symm).symm

/-- Witness for `c6_index_sort_stable`: instantiation at a singleton list and
concrete dates for the order bridge. -/
theorem c6_index_sort_stable_witness :
    Blog.keyLe (-2024, -(1 : Int), -(5 : Int)) (-2023, -(12 : Int), -(31 : Int)) = true :=
  ((c6_index_sort_stable []).2.2.1 2024 1 5 2023 12 31).mpr (by norm_num)

namespace Blog

theorem splitFirst_append (c : Char) (p q : List Char) (hp : c ∉ p) :
    splitFirst c (p ++ c :: q) = some (p, q) := by
  induction p with
  | nil => simp [splitFirst]
  | cons x xs ih =>
    have hx : ¬ x = c := fun he => hp (he ▸ List.mem_cons_self _ _)
    have hxs : c ∉ xs := fun hm => hp (List.mem_cons_of_mem _ hm)
    simp [splitFirst, hx, ih hxs]

theorem splitFirst_eq_some (c : Char) :
    ∀ (s p q : List Char), splitFirst c s = some (p, q) → s = p ++ c :: q
  | [], p, q, h => by simp [splitFirst] at h
  | x :: xs, p, q, h => by
    simp only [splitFirst] at h
    by_cases hx : x = c
    · rw [if_pos hx] at h
      injection h with h2
      injection h2 with hp hq
      subst hp
      subst hq
      simp [hx]
    · rw [if_neg hx] at h
      cases hsf : splitFirst c xs with
      | none => rw [hsf] at h; exact Option.noConfusion h
      | some pq =>
        obtain ⟨p2, q2⟩ := pq
        rw [hsf] at h
        injection h with h2
        injection h2 with hp hq
        subst hp
        subst hq
        have ihh := splitFirst_eq_some c xs p2 q2 hsf
        rw [ihh]
        simp

theorem splitn_cons (n : Nat) (c : Char) (p q : List Char) (hp : c ∉ p) :
    splitn (n + 2) c (p ++ c :: q) = p :: splitn (n + 1) c q := by
  rw [show splitn (n + 2) c (p ++ c :: q) =
      (match splitFirst c (p ++ c :: q) with
        | none => [p ++ c :: q]
        | some (p2, q2) => p2 :: splitn (n + 1) c q2) from rfl]
  rw [splitFirst_append c p q hp]

theorem splitn_length_le (c : Char) :
    ∀ (n : Nat) (s : List Char), (splitn (n + 1) c s).length ≤ s.count c + 1
  | 0, s => by
    rw [show splitn 1 c s = [s] from rfl]
    simp
  | n + 1, s => by
    rw [show splitn (n + 2) c s =
        (match splitFirst c s with
          | none => [s]
          | some (p, q) => p :: splitn (n + 1) c q) from rfl]
    cases hsf : splitFirst c s with
    | none => simp
    | some pq =>
      obtain ⟨p, q⟩ := pq
      have hs : s = p ++ c :: q := splitFirst_eq_some c s p q hsf
      have ih := splitn_length_le c n q
      have hcount : s.count c = p.count c + 1 + q.count c := by
        rw [hs]
        simp [List.count_append, List.count_cons]
        omega
      simp only [List.length_cons]
      omega

theorem all_digit_not_mem_dash {y : List Char} (h : y.all Char.isDigit) : '-' ∉ y := by
  intro hm
  have hd := List.all_eq_true.mp h _ hm
  exact absurd hd (by decide)

theorem parseInt_digits (s : List Char) (h1 : s ≠ []) (h2 : s.all Char.isDigit) :
    parseInt s = some ((natVal s : Int)) := by
  cases s with
  | nil => exact absurd rfl h1
  | cons a t =>
    have ha : a.isDigit := (List.all_cons .. ▸ h2 : (a.isDigit && t.all Char.isDigit) = true)
      |> Bool.and_elim_left
    have hplus : ¬ a = '+' := fun he => absurd (he ▸ ha) (by decide)
    have hminus : ¬ a = '-' := fun he => absurd (he ▸ ha) (by decide)
    simp only [parseInt, if_neg hplus, if_neg hminus]
    rw [parseDigits, if_pos ⟨h1, h2⟩]
    rfl

theorem parseI32_digits (s : List Char) (h1 : s ≠ []) (h2 : s.all Char.isDigit)
    (h3 : natVal s < 2 ^ 31) : parseI32 s = some ((natVal s : Int)) := by
  have hge : -((2 : Int) ^ 31) ≤ (natVal s : Int) :=
    le_trans (neg_nonpos_of_nonneg (pow_nonneg (by norm_num) 31)) (Int.natCast_nonneg _)
  have hlt : ((natVal s : Int)) < 2 ^ 31 := by exact_mod_cast h3
  calc parseI32 s
      = (if -((2 : Int) ^ 31) ≤ ((natVal s : Int)) ∧ ((natVal s : Int)) < 2 ^ 31
          then some ((natVal s : Int)) else none) := by
        rw [parseI32, parseInt_digits s h1 h2, Option.some_bind]
    _ = some ((natVal s : Int)) := if_pos ⟨hge, hlt⟩

theorem parseI16_digits (s : List Char) (h1 : s ≠ []) (h2 : s.all Char.isDigit)
    (h3 : natVal s < 2 ^ 15) : parseI16 s = some ((natVal s : Int)) := by
  have hge : -((2 : Int) ^ 15) ≤ (natVal s : Int) :=
    le_trans (neg_nonpos_of_nonneg (pow_nonneg (by norm_num) 15)) (Int.natCast_nonneg _)
  have hlt : ((natVal s : Int)) < 2 ^ 15 := by exact_mod_cast h3
  calc parseI16 s
      = (if -((2 : Int) ^ 15) ≤ ((natVal s : Int)) ∧ ((natVal s : Int)) < 2 ^ 15
          then some ((natVal s : Int)) else none) := by
        rw [parseI16, parseInt_digits s h1 h2, Option.some_bind]
    _ = some ((natVal s : Int)) := if_pos ⟨hge, hlt⟩

theorem stripMdRev_eq_self {r : List Char}
    (h : ∀ rest, r ≠ 'd' :: 'm' :: '.' :: rest) : stripMdRev r = r := by
  rw [stripMdRev.eq_def]
  split
  · next rest => exact absurd rfl (h rest)
  · rfl

theorem trim_md_append_md (A : List Char) (h : ¬ List.IsSuffix (".md".toList) A) :
    trim_end_matches_md (A ++ ".md".toList) = A := by
  rw [trim_end_matches_md, List.reverse_append]
  rw [show (".md".toList).reverse = ['d', 'm', '.'] from by decide]
  rw [show stripMdRev (['d', 'm', '.'] ++ A.reverse) = stripMdRev A.reverse from rfl]
  have hne : ∀ rest, A.reverse ≠ 'd' :: 'm' :: '.' :: rest := by
    intro rest hA
    apply h
    have h2 := congrArg List.reverse hA
    rw [List.reverse_reverse] at h2
    rw [h2]
    refine ⟨rest.reverse, ?_⟩
    rw [show ".md".toList = ['.', 'm', 'd'] from by decide]
    simp
  rw [stripMdRev_eq_self hne, List.reverse_reverse]

end Blog

/-- C7 counterexample: the claim's universal round-trip fails when the slug
itself ends in `.md`: the file name `2021-01-02-a.md.md` encodes the slug
`a.md`, but `trim_end_matches(".md")` strips BOTH trailing `.md` copies, so
`parse_file_name` recovers the slug `a` — not the encoded `a.md`. -/
theorem c7_slug_md_claim_false :
    (Blog.parse_file_name ("2021-01-02-a.md.md".toList)).map Blog.FileNameStruct.slug =
      some ("a".toList) ∧
    some ("a".toList) ≠ some ("a.md".toList) :=
  ⟨by decide, by decide⟩

/-- C7 amended: for every file name of the shape `YYYY-MM-DD-slug.md` whose first
three dash-separated segments are nonempty digit strings (with values in the
`i32`/`i16` ranges) and whose stem does not itself end in `.md` (otherwise
all trailing `.md` copies are stripped and the recovered slug is shorter than
the encoded one — see the counterexample), `parse_file_name` recovers exactly
the encoded year, month, day and slug — also when the slug contains dashes; a
trimmed name with fewer than three dashes, or a segment the integer parser
rejects, yields `none`; and a file whose name does not parse is silently
skipped by the directory loop. -/
theorem c7_filename_roundtrip_and_rejection (y m d s : List Char)
    (hy0 : y ≠ []) (hm0 : m ≠ []) (hd0 : d ≠ [])
    (hy1 : y.all Char.isDigit) (hm1 : m.all Char.isDigit) (hd1 : d.all Char.isDigit)
    (hy2 : Blog.natVal y < 2 ^ 31) (hm2 : Blog.natVal m < 2 ^ 15)
    (hd2 : Blog.natVal d < 2 ^ 15)
    (hnosuf : ¬ List.IsSuffix (".md".toList)
      (y ++ '-' :: (m ++ '-' :: (d ++ '-' :: s)))) :
    (Blog.parse_file_name ((y ++ '-' :: (m ++ '-' :: (d ++ '-' :: s))) ++ ".md".toList) =
      some ⟨y ++ '-' :: (m ++ '-' :: (d ++ '-' :: s)),
        (Blog.natVal y : Int), (Blog.natVal m : Int), (Blog.natVal d : Int), s⟩) ∧
    (∀ name, (Blog.trim_end_matches_md name).count '-' < 3 →
      Blog.parse_file_name name = none) ∧
    (∀ name p0 p1 p2 p3,
      Blog.splitn 4 '-' (Blog.trim_end_matches_md name) = [p0, p1, p2, p3] →
      (Blog.parseI32 p0 = none ∨ Blog.parseI16 p1 = none ∨ Blog.parseI16 p2 = none) →
      Blog.parse_file_name name = none) ∧
    (∀ name tree, Blog.parse_file_name name = none →
      Blog.process_entry name tree = .skip) := by
  refine ⟨?_, ?_, ?_, ?_⟩
  · have hyd : '-' ∉ y := Blog.all_digit_not_mem_dash hy1
    have hmd : '-' ∉ m := Blog.all_digit_not_mem_dash hm1
    have hdd : '-' ∉ d := Blog.all_digit_not_mem_dash hd1
    have htrim : Blog.trim_end_matches_md
        ((y ++ '-' :: (m ++ '-' :: (d ++ '-' :: s))) ++ ".md".toList) =
        y ++ '-' :: (m ++ '-' :: (d ++ '-' :: s)) :=
      Blog.trim_md_append_md _ hnosuf
    have e1 : Blog.splitn 4 '-' (y ++ '-' :: (m ++ '-' :: (d ++ '-' :: s))) =
        y :: Blog.splitn 3 '-' (m ++ '-' :: (d ++ '-' :: s)) :=
      Blog.splitn_cons 2 '-' y _ hyd
    have e2 : Blog.splitn 3 '-' (m ++ '-' :: (d ++ '-' :: s)) =
        m :: Blog.splitn 2 '-' (d ++ '-' :: s) :=
      Blog.splitn_cons 1 '-' m _ hmd
    have e3 : Blog.splitn 2 '-' (d ++ '-' :: s) = d :: Blog.splitn 1 '-' s :=
      Blog.splitn_cons 0 '-' d _ hdd
    have hparts : Blog.splitn 4 '-' (y ++ '-' :: (m ++ '-' :: (d ++ '-' :: s))) =
        [y, m, d, s] := by
      rw [e1, e2, e3]
      rfl
    simp only [Blog.parse_file_name]
    rw [htrim, hparts]
    rw [if_neg (by simp)]
    simp only [List.getD_cons_zero, List.getD_cons_succ]
    rw [Blog.parseI32_digits y hy0 hy1 hy2, Blog.parseI16_digits m hm0 hm1 hm2,
      Blog.parseI16_digits d hd0 hd1 hd2]
    rfl
  · intro name hcount
    have hlen : (Blog.splitn 4 '-' (Blog.trim_end_matches_md name)).length ≤
        (Blog.trim_end_matches_md name).count '-' + 1 :=
      Blog.splitn_length_le '-' 3 (Blog.trim_end_matches_md name)
    simp only [Blog.parse_file_name]
    rw [if_pos (by omega)]
  · intro name p0 p1 p2 p3 hsplit hbad
    simp only [Blog.parse_file_name]
    rw [hsplit]
    rw [if_neg (by simp)]
    simp only [List.getD_cons_zero, List.getD_cons_succ]
    rcases hbad with h0 | h1 | h2
    · simp [h0]
    · cases hy : Blog.parseI32 p0 with
      | none => simp
      | some yv => simp [h1]
    · cases hy : Blog.parseI32 p0 with
      | none => simp
      | some yv =>
        cases hm3 : Blog.parseI16 p1 with
        | none => simp
        | some mv => simp [h2]
  · intro name tree hparse
    simp only [Blog.process_entry]
    split_ifs with h
    · rfl
    · rw [hparse]

/-- Witness for `c7_filename_roundtrip_and_rejection` at
`2021-03-02-hello-world.md` (the slug `hello-world` contains a dash). -/
theorem c7_filename_roundtrip_and_rejection_witness :
    Blog.parse_file_name ("2021-03-02-hello-world.md".toList) =
      some ⟨"2021-03-02-hello-world".toList, 2021, 3, 2, "hello-world".toList⟩ := by
  have h := (c7_filename_roundtrip_and_rejection ("2021".toList) ("03".toList)
    ("02".toList) ("hello-world".toList) (by decide) (by decide) (by decide)
    (by decide) (by decide) (by decide) (by decide) (by decide) (by decide)
    (by decide)).1
  exact h
